import Mathlib

/-!
Verification of django-meme-maker (`meme_maker/models.py`).

Shallow embedding conventions:
* Python `float` arithmetic on the small integer quantities appearing in the
  rendering code is modelled by exact rational arithmetic (`ℚ`).
* Python `int(x)` truncates toward zero; `int_trunc` models it on `ℚ`.
* Python strings are modelled as `List Char`; `str.split()`, `str.split(',')`,
  `str.strip()` and `str.join` are defined below mirroring CPython semantics.
* Text measurement (`draw.textbbox`) is an abstract function `List Char → ℕ`.
-/

/-- Model of Python `int(q)`: truncation toward zero. -/
def int_trunc (q : ℚ) : ℤ :=
  if q < 0 then ⌈q⌉ else ⌊q⌋

lemma int_trunc_of_nonneg (q : ℚ) (h : 0 ≤ q) : int_trunc q = ⌊q⌋ := by
  simp [int_trunc, not_lt.2 h]

lemma floor_natCast_div (a b : ℕ) : ⌊(a : ℚ) / (b : ℚ)⌋ = ((a / b : ℕ) : ℤ) := by
  rcases Nat.eq_zero_or_pos b with hb | hb
  · subst hb; simp
  · have hbq : (0 : ℚ) < (b : ℚ) := by exact_mod_cast hb
    rw [Int.floor_eq_iff]
    constructor
    · rw [le_div_iff₀ hbq]
      have : ((a / b) * b : ℕ) ≤ a := Nat.div_mul_le_self a b
      exact_mod_cast this
    · rw [div_lt_iff₀ hbq]
      have hlt : a < (a / b + 1) * b := by
        have h1 := Nat.div_add_mod a b
        have h2 : a % b < b := Nat.mod_lt a hb
        calc a = b * (a / b) + a % b := h1.symm
        _ < b * (a / b) + b := by omega
        _ = (a / b + 1) * b := by ring
      exact_mod_cast hlt

lemma floor_nat_mul_div (a b c : ℕ) :
    ⌊(a : ℚ) * ((b : ℚ) / (c : ℚ))⌋ = ((a * b / c : ℕ) : ℤ) := by
  rw [← mul_div_assoc]
  have : (a : ℚ) * (b : ℚ) = ((a * b : ℕ) : ℚ) := by push_cast; ring
  rw [this, floor_natCast_div]

/-- Default font size when `overlay.get('font_size')` is falsy:
`user_font_size = overlay.get('font_size') or 48`.  A missing key and a JSON
`null` both give Python `None` (modelled by `none`); `0` is also falsy. -/
def overlay_font_size (font_size : Option ℕ) : ℕ :=
  match font_size with
  | none => 48
  | some n => if n = 0 then 48 else n

/-- Effective font size from `generate_image`:
`scale_factor = width / base_width` with `base_width = 800.0`, then
`font_size = max(16, int(user_font_size * scale_factor))`. -/
def effectiveFontSize (user_font_size width : ℕ) : ℕ :=
  max 16 (int_trunc ((user_font_size : ℚ) * ((width : ℚ) / 800))).toNat

/-- Line height from `generate_image`: `line_height = int(font_size * 1.2)`. -/
def lineHeight (font_size : ℕ) : ℕ :=
  (int_trunc ((font_size : ℚ) * (6 / 5))).toNat

/-- Total text block height: `total_text_height = line_height * len(lines)`. -/
def totalTextHeight (font_size num_lines : ℕ) : ℕ :=
  lineHeight font_size * num_lines

/-- Stroke radius from `generate_image`:
`stroke_width = max(2, int(font_size / 16))`. -/
def strokeWidth (font_size : ℕ) : ℕ :=
  max 2 (int_trunc ((font_size : ℚ) / 16)).toNat

/-- Overlay position: the string values `'top'`, `'bottom'`, or anything else
(which uses the percentage `overlay.get('y', 50)`). -/
inductive OverlayPosition : Type
  | top
  | bottom
  | custom (y : ℕ)
deriving DecidableEq, Repr

/-- Vertical start of the text block from `generate_image`:
`start_y = int(height * 0.03)` for top,
`start_y = height - total_text_height - int(height * 0.03)` for bottom,
`start_y = int(height * y / 100) - total_text_height // 2` otherwise. -/
def startY (position : OverlayPosition) (height total_text_height : ℕ) : ℤ :=
  match position with
  | OverlayPosition.top => int_trunc ((height : ℚ) * (3 / 100))
  | OverlayPosition.bottom =>
      (height : ℤ) - (total_text_height : ℤ) - int_trunc ((height : ℚ) * (3 / 100))
  | OverlayPosition.custom y =>
      int_trunc ((height : ℚ) * (y : ℚ) / 100) - (total_text_height : ℤ) / 2

lemma effectiveFontSize_eq (F W : ℕ) :
    effectiveFontSize F W = max 16 (F * W / 800) := by
  have h0 : (0 : ℚ) ≤ (F : ℚ) * ((W : ℚ) / 800) := by positivity
  have h8 : (800 : ℚ) = ((800 : ℕ) : ℚ) := by norm_num
  rw [effectiveFontSize, int_trunc_of_nonneg _ h0, h8, floor_nat_mul_div]
  congr 1

lemma lineHeight_eq (fs : ℕ) : lineHeight fs = 6 * fs / 5 := by
  have h0 : (0 : ℚ) ≤ (fs : ℚ) * (6 / 5) := by positivity
  have h6 : (6 : ℚ) = ((6 : ℕ) : ℚ) := by norm_num
  have h5 : (5 : ℚ) = ((5 : ℕ) : ℚ) := by norm_num
  rw [lineHeight, int_trunc_of_nonneg _ h0, h6, h5, floor_nat_mul_div]
  omega

lemma strokeWidth_eq (fs : ℕ) : strokeWidth fs = max 2 (fs / 16) := by
  have h0 : (0 : ℚ) ≤ (fs : ℚ) / 16 := by positivity
  have h16 : (16 : ℚ) = ((16 : ℕ) : ℚ) := by norm_num
  rw [strokeWidth, int_trunc_of_nonneg _ h0, h16, floor_natCast_div]
  congr 1

lemma trunc_three_percent (H : ℕ) :
    int_trunc ((H : ℚ) * (3 / 100)) = ((3 * H / 100 : ℕ) : ℤ) := by
  have h0 : (0 : ℚ) ≤ (H : ℚ) * (3 / 100) := by positivity
  have h3 : (3 : ℚ) = ((3 : ℕ) : ℚ) := by norm_num
  have h100 : (100 : ℚ) = ((100 : ℕ) : ℚ) := by norm_num
  rw [int_trunc_of_nonneg _ h0, h3, h100, floor_nat_mul_div]
  omega

/-- Stroke offsets, mirroring the nested loops
`for dx in range(-stroke_width, stroke_width + 1)` /
`for dy in range(-stroke_width, stroke_width + 1)` with the guard
`if dx * dx + dy * dy <= stroke_width * stroke_width`. -/
def strokeOffsets (r : ℕ) : List (ℤ × ℤ) :=
  (List.range (2 * r + 1)).flatMap fun (i : ℕ) =>
    (List.range (2 * r + 1)).filterMap fun (j : ℕ) =>
      if ((i : ℤ) - r) * ((i : ℤ) - r) + ((j : ℤ) - r) * ((j : ℤ) - r) ≤ (r : ℤ) * r
      then some ((i : ℤ) - (r : ℤ), (j : ℤ) - (r : ℤ)) else none

/-- A single `draw.text` call: either a stroke-colored pass or the
fill-colored pass. -/
inductive DrawEvent : Type
  | strokeDraw (p : ℤ × ℤ)
  | fillDraw (p : ℤ × ℤ)
deriving DecidableEq, Repr

/-- Sequence of `draw.text` calls issued for one wrapped line at `(x, y)`:
all stroke offsets first, then the single fill draw. -/
def drawLineEvents (x y : ℤ) (r : ℕ) : List DrawEvent :=
  ((strokeOffsets r).map fun d => DrawEvent.strokeDraw (x + d.1, y + d.2)) ++
    [DrawEvent.fillDraw (x, y)]

lemma abs_bounds_of_sq_le_sq (r : ℕ) (x : ℤ) (hx : x * x ≤ (r : ℤ) * r) :
    -(r : ℤ) ≤ x ∧ x ≤ (r : ℤ) := by
  have hr : (0 : ℤ) ≤ (r : ℤ) := Int.natCast_nonneg r
  constructor <;> nlinarith [sq_nonneg (x - (r : ℤ)), sq_nonneg (x + (r : ℤ))]

lemma mem_strokeOffsets (r : ℕ) (d : ℤ × ℤ) :
    d ∈ strokeOffsets r ↔ d.1 * d.1 + d.2 * d.2 ≤ (r : ℤ) * r := by
  constructor
  · intro h
    obtain ⟨i, hi, hmem⟩ := List.mem_flatMap.mp h
    obtain ⟨j, hj, hcond⟩ := List.mem_filterMap.mp hmem
    by_cases hc :
        ((i : ℤ) - r) * ((i : ℤ) - r) + ((j : ℤ) - r) * ((j : ℤ) - r) ≤ (r : ℤ) * r
    · rw [if_pos hc] at hcond
      obtain rfl : ((i : ℤ) - (r : ℤ), (j : ℤ) - (r : ℤ)) = d := Option.some.inj hcond
      exact hc
    · rw [if_neg hc] at hcond
      exact absurd hcond (by simp)
  · intro h
    have h1 : d.1 * d.1 ≤ (r : ℤ) * r := by nlinarith [mul_self_nonneg d.2]
    have h2 : d.2 * d.2 ≤ (r : ℤ) * r := by nlinarith [mul_self_nonneg d.1]
    obtain ⟨hl1, hu1⟩ := abs_bounds_of_sq_le_sq r d.1 h1
    obtain ⟨hl2, hu2⟩ := abs_bounds_of_sq_le_sq r d.2 h2
    have e1 : (((d.1 + r).toNat : ℤ)) = d.1 + r := Int.toNat_of_nonneg (by omega)
    have e2 : (((d.2 + r).toNat : ℤ)) = d.2 + r := Int.toNat_of_nonneg (by omega)
    have b1 : (d.1 + (r : ℤ)).toNat < 2 * r + 1 := by omega
    have b2 : (d.2 + (r : ℤ)).toNat < 2 * r + 1 := by omega
    apply List.mem_flatMap.mpr
    refine ⟨(d.1 + r).toNat, List.mem_range.mpr b1, ?_⟩
    apply List.mem_filterMap.mpr
    refine ⟨(d.2 + r).toNat, List.mem_range.mpr b2, ?_⟩
    rw [e1, e2]
    have ed1 : d.1 + (r : ℤ) - r = d.1 := by ring
    have ed2 : d.2 + (r : ℤ) - r = d.2 := by ring
    rw [ed1, ed2, if_pos h]

/-- Python strings, modelled as lists of characters. -/
abbrev PyStr := List Char

/-- Accumulator-based helper for Python `str.split()` with no separator:
runs of whitespace separate words, and empty pieces are dropped. -/
def pySplitAux : List Char → List Char → List PyStr
  | [], cur => if cur = [] then [] else [cur.reverse]
  | c :: cs, cur =>
    if c.isWhitespace then
      if cur = [] then pySplitAux cs []
      else cur.reverse :: pySplitAux cs []
    else pySplitAux cs (c :: cur)

/-- Python `text.split()`: the word list used by `wrap_text`. -/
def pySplit (text : PyStr) : List PyStr :=
  pySplitAux text []

/-- Python `' '.join(words)`. -/
def joinWords : List PyStr → PyStr
  | [] => []
  | [w] => w
  | w :: ws => w ++ (' ' :: joinWords ws)

lemma joinWords_cons_of_ne (w : PyStr) (ws : List PyStr) (h : ws ≠ []) :
    joinWords (w :: ws) = w ++ (' ' :: joinWords ws) := by
  cases ws with
  | nil => exact absurd rfl h
  | cons a as => rfl

lemma joinWords_append_single (ws : List PyStr) (w : PyStr) :
    joinWords (ws ++ [w]) =
      if ws = [] then w else joinWords ws ++ (' ' :: w) := by
  induction ws with
  | nil => simp [joinWords]
  | cons a as ih =>
    cases as with
    | nil => simp [joinWords]
    | cons b bs =>
      rw [if_neg (by simp), List.cons_append,
        joinWords_cons_of_ne a ((b :: bs) ++ [w]) (by simp), ih,
        if_neg (by simp), joinWords_cons_of_ne a (b :: bs) (by simp)]
      simp [List.append_assoc]

/-- Loop body of `wrap_text` in `Meme.generate_image`: `lines` and
`current_line` are the mutable accumulators, the third argument is the
remaining word list, and `m` measures rendered pixel width
(`draw.textbbox(...)[2] - draw.textbbox(...)[0]` for the given font). -/
def wrapLoop (m : PyStr → ℕ) (max_width : ℕ) :
    List PyStr → List PyStr → List PyStr → List PyStr
  | lines, current_line, [] =>
    if current_line = [] then lines else lines ++ [joinWords current_line]
  | lines, current_line, word :: words =>
    if m (joinWords (current_line ++ [word])) ≤ max_width then
      wrapLoop m max_width lines (current_line ++ [word]) words
    else
      if current_line = [] then wrapLoop m max_width lines [word] words
      else wrapLoop m max_width (lines ++ [joinWords current_line]) [word] words

/-- The `wrap_text` helper of `Meme.generate_image`: splits into words,
returns `[text]` when there are none, else runs the greedy wrap loop and
falls back to `[text]` when no lines were produced. -/
def wrap_text (m : PyStr → ℕ) (text : PyStr) (max_width : ℕ) : List PyStr :=
  if pySplit text = [] then [text]
  else
    if wrapLoop m max_width [] [] (pySplit text) = [] then [text]
    else wrapLoop m max_width [] [] (pySplit text)

lemma mem_wrapLoop_of_mem_lines (m : PyStr → ℕ) (max_width : ℕ) :
    ∀ (words lines current_line : List PyStr) (l : PyStr),
      l ∈ lines → l ∈ wrapLoop m max_width lines current_line words := by
  intro words
  induction words with
  | nil =>
    intro lines cur l hl
    simp only [wrapLoop]
    split
    · exact hl
    · exact List.mem_append_left _ hl
  | cons w ws ih =>
    intro lines cur l hl
    simp only [wrapLoop]
    split
    · exact ih _ _ l hl
    · split
      · exact ih _ _ l hl
      · exact ih _ _ l (List.mem_append_left _ hl)

lemma wide_word_stays (m : PyStr → ℕ) (max_width : ℕ) (w : PyStr)
    (hL : ∀ s t : PyStr, m s ≤ m (s ++ t))
    (hw : max_width < m w) :
    ∀ (ws lines : List PyStr), w ∈ wrapLoop m max_width lines [w] ws := by
  intro ws
  induction ws with
  | nil =>
    intro lines
    simp only [wrapLoop]
    rw [if_neg (by simp)]
    exact List.mem_append_right _ (by simp [joinWords])
  | cons v vs ih =>
    intro lines
    simp only [wrapLoop]
    have htest : ¬ m (joinWords ([w] ++ [v])) ≤ max_width := by
      have : joinWords ([w] ++ [v]) = w ++ (' ' :: v) := by
        simp [joinWords]
      rw [this]
      have := hL w (' ' :: v)
      omega
    rw [if_neg htest, if_neg (by simp)]
    have hjw : joinWords [w] = w := rfl
    rw [hjw]
    exact mem_wrapLoop_of_mem_lines m max_width vs (lines ++ [w]) [v] w
      (List.mem_append_right _ (by simp))

lemma wide_word_mem_wrapLoop (m : PyStr → ℕ) (max_width : ℕ) (w : PyStr)
    (hL : ∀ s t : PyStr, m s ≤ m (s ++ t))
    (hR : ∀ s t : PyStr, m t ≤ m (s ++ t))
    (hw : max_width < m w) :
    ∀ (ws : List PyStr), w ∈ ws →
      ∀ (lines current_line : List PyStr),
        w ∈ wrapLoop m max_width lines current_line ws := by
  intro ws
  induction ws with
  | nil => intro h; exact absurd h (by simp)
  | cons v vs ih =>
    intro hmem lines cur
    rcases List.mem_cons.mp hmem with rfl | hvs
    · have hbig : m w ≤ m (joinWords (cur ++ [w])) := by
        rw [joinWords_append_single]
        split
        · exact le_rfl
        · calc m w ≤ m ([' '] ++ w) := hR [' '] w
          _ ≤ m (joinWords cur ++ ([' '] ++ w)) := hR _ _
          _ = m (joinWords cur ++ (' ' :: w)) := rfl
      simp only [wrapLoop]
      rw [if_neg (by omega)]
      split
      · exact wide_word_stays m max_width w hL hw vs lines
      · exact wide_word_stays m max_width w hL hw vs (lines ++ [joinWords cur])
    · simp only [wrapLoop]
      split
      · exact ih hvs _ _
      · split
        · exact ih hvs _ _
        · exact ih hvs _ _

/-- C3: `wrap_text` always returns at least one line, and when the text
splits into no words (the empty string or a whitespace-only string) it
returns the single-element list containing the original text. -/
theorem c3_wrap_nonempty (m : PyStr → ℕ) (text : PyStr) (max_width : ℕ) :
    1 ≤ (wrap_text m text max_width).length ∧
    (pySplit text = [] → wrap_text m text max_width = [text]) := by
  constructor
  · rw [wrap_text]
    split
    · simp
    · split
      · simp
      · rename_i h2
        have := List.length_pos.mpr h2
        omega
  · intro h
    rw [wrap_text, if_pos h]

/-- C3 witness: wrapping the empty string yields `[""]`, a one-element
list. -/
theorem c3_witness :
    1 ≤ (wrap_text (fun s => s.length) [] 500).length ∧
    wrap_text (fun s => s.length) [] 500 = [[]] :=
  ⟨(c3_wrap_nonempty (fun s => s.length) [] 500).1,
   (c3_wrap_nonempty (fun s => s.length) [] 500).2 rfl⟩

/-- C9: any word of the input whose measured pixel width exceeds
`max_width` appears unsplit as one of the output lines of `wrap_text`,
provided the width measure is monotone under concatenation on either side
(true of pixel-width text measurement). -/
theorem c9_long_word_own_line (m : PyStr → ℕ) (max_width : ℕ)
    (text w : PyStr)
    (hL : ∀ s t : PyStr, m s ≤ m (s ++ t))
    (hR : ∀ s t : PyStr, m t ≤ m (s ++ t))
    (hmem : w ∈ pySplit text) (hwide : max_width < m w) :
    w ∈ wrap_text m text max_width := by
  have hne : pySplit text ≠ [] := by
    intro h
    rw [h] at hmem
    exact absurd hmem (by simp)
  have hloop : w ∈ wrapLoop m max_width [] [] (pySplit text) :=
    wide_word_mem_wrapLoop m max_width w hL hR hwide (pySplit text) hmem [] []
  rw [wrap_text, if_neg hne, if_neg (fun h => by rw [h] at hloop; simp at hloop)]
  exact hloop

/-- C9 witness: a three-character word with measure 3 exceeds a max width
of 1 and is returned alone, unsplit. -/
theorem c9_witness :
    ['a', 'b', 'c'] ∈ wrap_text List.length ['a', 'b', 'c'] 1 :=
  c9_long_word_own_line List.length 1 ['a', 'b', 'c'] ['a', 'b', 'c']
    (fun s t => by rw [List.length_append]; omega)
    (fun s t => by rw [List.length_append]; omega)
    (by decide) (by decide)

/-- Python `str.strip()` with no argument: remove leading and trailing
whitespace. -/
def pyStrip (s : PyStr) : PyStr :=
  ((s.dropWhile Char.isWhitespace).reverse.dropWhile Char.isWhitespace).reverse

/-- Python `text.split(',')`: split at every comma, keeping empty pieces. -/
def pySplitComma : PyStr → List PyStr
  | [] => [[]]
  | c :: cs =>
    if c = ',' then [] :: pySplitComma cs
    else
      match pySplitComma cs with
      | [] => [[c]]
      | p :: ps => (c :: p) :: ps

/-- Python `sep.join(parts)`. -/
def pyJoin (sep : PyStr) : List PyStr → PyStr
  | [] => []
  | [t] => t
  | t :: ts => t ++ sep ++ pyJoin sep ts

/-- `MemeTemplate.get_tags_list`: empty field gives `[]`, otherwise split on
commas, strip each piece, and keep the non-empty ones. -/
def get_tags_list (tags : PyStr) : List PyStr :=
  if tags = [] then []
  else ((pySplitComma tags).map pyStrip).filter (fun t => decide (t ≠ []))

/-- `MemeTemplate.set_tags_from_list`: `self.tags = ', '.join(tags_list)`. -/
def set_tags_from_list (tags_list : List PyStr) : PyStr :=
  pyJoin [',', ' '] tags_list

lemma pySplitComma_comma (rest : PyStr) :
    pySplitComma (',' :: rest) = [] :: pySplitComma rest := by
  simp [pySplitComma]

lemma pySplitComma_append (t : PyStr) (rest : PyStr) (h : ',' ∉ t) :
    ∀ p ps, pySplitComma rest = p :: ps →
      pySplitComma (t ++ rest) = (t ++ p) :: ps := by
  induction t with
  | nil => intro p ps hr; simpa using hr
  | cons c cs ih =>
    intro p ps hr
    have hc : ¬ c = ',' := by
      intro e
      exact h (by rw [e]; exact List.mem_cons_self _ _)
    have hcs : ',' ∉ cs := fun e => h (List.mem_cons_of_mem _ e)
    simp only [List.cons_append, pySplitComma, if_neg hc, List.append_eq]
    rw [ih hcs p ps hr]

lemma pyStrip_cons_space (u : PyStr) : pyStrip (' ' :: u) = pyStrip u := by
  simp [pyStrip, List.dropWhile]

lemma pyJoin_cons_cons (sep : PyStr) (t u : PyStr) (us : List PyStr) :
    pyJoin sep (t :: u :: us) = t ++ sep ++ pyJoin sep (u :: us) := rfl

lemma pySplitComma_pyJoin (t : PyStr) (ts : List PyStr)
    (h : ∀ u ∈ t :: ts, ',' ∉ u) :
    pySplitComma (pyJoin [',', ' '] (t :: ts)) =
      t :: ts.map (fun u => ' ' :: u) := by
  induction ts generalizing t with
  | nil =>
    have := pySplitComma_append t [] (h t (List.mem_cons_self _ _)) [] [] rfl
    simpa using this
  | cons u us ih =>
    have hju : pySplitComma (pyJoin [',', ' '] (u :: us)) =
        u :: us.map (fun v => ' ' :: v) :=
      ih u (fun v hv => h v (List.mem_cons_of_mem _ hv))
    have hsp : pySplitComma (' ' :: pyJoin [',', ' '] (u :: us)) =
        (' ' :: u) :: us.map (fun v => ' ' :: v) := by
      simp only [pySplitComma, hju]
      rw [if_neg (by decide : ¬ (' ' = ','))]
    have hcm : pySplitComma (',' :: ' ' :: pyJoin [',', ' '] (u :: us)) =
        [] :: (' ' :: u) :: us.map (fun v => ' ' :: v) := by
      rw [pySplitComma_comma, hsp]
    have happ := pySplitComma_append t
      (',' :: ' ' :: pyJoin [',', ' '] (u :: us))
      (h t (List.mem_cons_self _ _)) _ _ hcm
    rw [pyJoin_cons_cons, List.append_assoc]
    have hsep : ([',', ' '] : PyStr) ++ pyJoin [',', ' '] (u :: us) =
        ',' :: ' ' :: pyJoin [',', ' '] (u :: us) := rfl
    rw [hsep, happ]
    simp

/-- C10: tags set from a list of non-empty, comma-free, already-stripped
strings survive the round trip through the comma-separated `tags` field. -/
theorem c10_tags_roundtrip (l : List PyStr)
    (h : ∀ t ∈ l, t ≠ [] ∧ ',' ∉ t ∧ pyStrip t = t) :
    get_tags_list (set_tags_from_list l) = l := by
  cases l with
  | nil => rfl
  | cons t ts =>
    have ht := h t (List.mem_cons_self _ _)
    have hsplit := pySplitComma_pyJoin t ts (fun u hu => (h u hu).2.1)
    have hne : set_tags_from_list (t :: ts) ≠ [] := by
      rw [set_tags_from_list]
      cases ts with
      | nil => exact ht.1
      | cons u us =>
        rw [pyJoin_cons_cons]
        simp
    rw [get_tags_list, if_neg hne, set_tags_from_list] at *
    rw [hsplit]
    have hmap : (ts.map (fun u => ' ' :: u)).map pyStrip = ts := by
      rw [List.map_map]
      have : ∀ u ∈ ts, (pyStrip ∘ fun v => ' ' :: v) u = id u := by
        intro u hu
        have := (h u (List.mem_cons_of_mem _ hu)).2.2
        simp [Function.comp, pyStrip_cons_space, this]
      rw [List.map_congr_left this, List.map_id]
    rw [List.map_cons, hmap, ht.2.2]
    rw [List.filter_eq_self.mpr]
    intro a ha
    rcases List.mem_cons.mp ha with rfl | has
    · simpa using ht.1
    · simpa using (h a (List.mem_cons_of_mem _ has)).1

/-- C10 witness: the two-tag list `["a", "bc"]` round-trips. -/
theorem c10_witness :
    (∀ t ∈ ([['a'], ['b', 'c']] : List PyStr),
      t ≠ [] ∧ ',' ∉ t ∧ pyStrip t = t) ∧
    get_tags_list (set_tags_from_list [['a'], ['b', 'c']]) =
      [['a'], ['b', 'c']] :=
  ⟨by decide, c10_tags_roundtrip [['a'], ['b', 'c']] (by decide)⟩

/-- `Meme.generate_image`, shallowly embedded.  Pillow import failure or a
missing source image return `None` before the `try` block; inside it, the
decode step (`Image.open` + `convert`) and the rest of the rendering pipeline
(overlay drawing, watermarking, JPEG encoding, filename generation) are
abstract fallible steps, and any raised exception is caught by the trailing
`except Exception`, which logs and returns `None`. -/
def generate_image {Bytes Img Name Err : Type}
    (pillow_available : Bool)
    (source_image : Option Bytes)
    (decode : Bytes → Except Err Img)
    (render : Img → Except Err (Name × Bytes)) : Option (Name × Bytes) :=
  match pillow_available, source_image with
  | false, _ => none
  | true, none => none
  | true, some raw =>
    match decode raw with
    | Except.error _ => none
    | Except.ok img =>
      match render img with
      | Except.error _ => none
      | Except.ok out => some out

/-- C6: `generate_image` never raises: undecodable source bytes or any
exception inside the rendering pipeline yield the no-artifact sentinel
`None`, and a `some` result is exactly the (filename, image bytes) pair
produced by a fully successful pipeline. -/
theorem c6_render_never_raises {Bytes Img Name Err : Type}
    (pillow_available : Bool) (source_image : Option Bytes)
    (decode : Bytes → Except Err Img)
    (render : Img → Except Err (Name × Bytes)) :
    (∀ raw e, source_image = some raw → decode raw = Except.error e →
      generate_image pillow_available source_image decode render = none) ∧
    (∀ raw img e, source_image = some raw → decode raw = Except.ok img →
      render img = Except.error e →
      generate_image pillow_available source_image decode render = none) ∧
    (∀ out, generate_image pillow_available source_image decode render = some out →
      ∃ raw img, source_image = some raw ∧ decode raw = Except.ok img ∧
        render img = Except.ok out) := by
  refine ⟨?_, ?_, ?_⟩
  · intro raw e hs hd
    subst hs
    cases pillow_available
    · rfl
    · simp [generate_image, hd]
  · intro raw img e hs hd hr
    subst hs
    cases pillow_available
    · rfl
    · simp [generate_image, hd, hr]
  · intro out hout
    cases pillow_available
    · exact absurd hout (by simp [generate_image])
    · cases source_image with
      | none => exact absurd hout (by simp [generate_image])
      | some raw =>
        cases hd : decode raw with
        | error e =>
          rw [generate_image] at hout
          simp [hd] at hout
        | ok img =>
          cases hr : render img with
          | error e =>
            rw [generate_image] at hout
            simp [hd, hr] at hout
          | ok res =>
            rw [generate_image] at hout
            simp only [hd, hr, Option.some.injEq] at hout
            exact ⟨raw, img, rfl, hd, by rw [hr, hout]⟩

/-- C6 witness: with decodable-looking inputs but a failing decode step the
render call returns `none`. -/
theorem c6_witness :
    generate_image true (some 0)
      (fun (_ : ℕ) => (Except.error 0 : Except ℕ ℕ))
      (fun img => Except.ok (img, img)) = none :=
  (c6_render_never_raises true (some 0)
    (fun _ => Except.error 0) (fun img => Except.ok (img, img))).1 0 0 rfl rfl

/-- Geometry of `_apply_watermark`: `new_wm_width = int(img_width * scale)`,
`aspect_ratio = wm_height / wm_width`,
`new_wm_height = int(new_wm_width * aspect_ratio)`, and the paste position
`(img_width - new_wm_width - padding, img_height - new_wm_height - padding)`.
Returns `((new_wm_width, new_wm_height), (x, y))`. -/
def watermark_geometry (img_width img_height wm_width wm_height : ℕ)
    (scale : ℚ) (padding : ℤ) : (ℤ × ℤ) × (ℤ × ℤ) :=
  let new_wm_width : ℤ := int_trunc ((img_width : ℚ) * scale)
  let new_wm_height : ℤ :=
    int_trunc ((new_wm_width : ℚ) * ((wm_height : ℚ) / (wm_width : ℚ)))
  ((new_wm_width, new_wm_height),
   ((img_width : ℤ) - new_wm_width - padding,
    (img_height : ℤ) - new_wm_height - padding))

/-- `Meme._apply_watermark`, shallowly embedded.  `find_watermark` abstracts
the three-way file lookup (absolute path, static finders, `BASE_DIR`) and
returns the opened watermark with its size; the second component of the
result collects the paths for which the not-found warning was logged. -/
def apply_watermark {Img Path : Type}
    (watermark_path : Option Path)
    (find_watermark : Path → Option (Img × ℕ × ℕ))
    (scale : ℚ) (padding : ℤ)
    (composite : Img → Img → (ℤ × ℤ) → (ℤ × ℤ) → Img)
    (img : Img) (img_width img_height : ℕ) :
    Img × List Path :=
  match watermark_path with
  | none => (img, [])
  | some path =>
    match find_watermark path with
    | none => (img, [path])
    | some (wm, wm_width, wm_height) =>
      (composite img wm
        (watermark_geometry img_width img_height wm_width wm_height
          scale padding).1
        (watermark_geometry img_width img_height wm_width wm_height
          scale padding).2,
       [])

/-- C7: with no watermark path configured, `_apply_watermark` returns the
input image unchanged with nothing logged; with a configured path that
resolves to no file, it returns the input unchanged and logs the not-found
warning, never raising. -/
theorem c7_watermark_noop {Img Path : Type}
    (find_watermark : Path → Option (Img × ℕ × ℕ))
    (scale : ℚ) (padding : ℤ)
    (composite : Img → Img → (ℤ × ℤ) → (ℤ × ℤ) → Img)
    (img : Img) (img_width img_height : ℕ) :
    apply_watermark none find_watermark scale padding composite
      img img_width img_height = (img, []) ∧
    (∀ path, find_watermark path = none →
      apply_watermark (some path) find_watermark scale padding composite
        img img_width img_height = (img, [path])) := by
  refine ⟨rfl, ?_⟩
  intro path h
  simp [apply_watermark, h]

/-- C7 witness: a configured path that resolves to nothing leaves the image
unchanged and logs it. -/
theorem c7_witness :
    apply_watermark (some 7) (fun (_ : ℕ) => (none : Option (ℕ × ℕ × ℕ)))
      (7 / 10) 10 (fun i _ _ _ => i) 5 640 480 = (5, [7]) :=
  (c7_watermark_noop (fun (_ : ℕ) => (none : Option (ℕ × ℕ × ℕ)))
    (7 / 10) 10 (fun i _ _ _ => i) 5 640 480).2 7 rfl

/-- C8 (amended): the watermark is resized to width
`floor(scale * img_width)` (the code truncates with `int`, so the width only
approximates `scale * img_width`), its height preserves the aspect ratio up
to the same truncation, it is pasted with top-left corner at
`(img_width - new_width - padding, img_height - new_height - padding)`, and
for a 1000×1000 image with a 100×100 watermark at scale 0.1 and padding 10
that corner is (890, 890). -/
theorem c8_watermark_placement {Img Path : Type}
    (find_watermark : Path → Option (Img × ℕ × ℕ))
    (composite : Img → Img → (ℤ × ℤ) → (ℤ × ℤ) → Img)
    (img : Img) (img_width img_height wm_width wm_height : ℕ)
    (scale : ℚ) (padding : ℤ) (hscale : 0 ≤ scale) :
    (watermark_geometry img_width img_height wm_width wm_height
        scale padding).1.1 = ⌊(img_width : ℚ) * scale⌋ ∧
    (watermark_geometry img_width img_height wm_width wm_height
        scale padding).1.2 =
      ⌊((⌊(img_width : ℚ) * scale⌋ : ℚ)) * ((wm_height : ℚ) / (wm_width : ℚ))⌋ ∧
    (watermark_geometry img_width img_height wm_width wm_height
        scale padding).2 =
      ((img_width : ℤ) -
        (watermark_geometry img_width img_height wm_width wm_height
          scale padding).1.1 - padding,
       (img_height : ℤ) -
        (watermark_geometry img_width img_height wm_width wm_height
          scale padding).1.2 - padding) ∧
    (∀ path wm, find_watermark path = some (wm, wm_width, wm_height) →
      apply_watermark (some path) find_watermark scale padding composite
        img img_width img_height =
        (composite img wm
          (watermark_geometry img_width img_height wm_width wm_height
            scale padding).1
          (watermark_geometry img_width img_height wm_width wm_height
            scale padding).2, [])) ∧
    watermark_geometry 1000 1000 100 100 (1 / 10) 10 =
      ((100, 100), (890, 890)) := by
  have hw : (0 : ℚ) ≤ (img_width : ℚ) * scale :=
    mul_nonneg (Nat.cast_nonneg _) hscale
  have hwidth : (watermark_geometry img_width img_height wm_width wm_height
      scale padding).1.1 = ⌊(img_width : ℚ) * scale⌋ := by
    simp only [watermark_geometry]
    exact int_trunc_of_nonneg _ hw
  have hh : (0 : ℚ) ≤
      ((⌊(img_width : ℚ) * scale⌋ : ℚ)) * ((wm_height : ℚ) / (wm_width : ℚ)) := by
    have h1 : (0 : ℚ) ≤ ((⌊(img_width : ℚ) * scale⌋ : ℚ)) := by
      have := Int.floor_nonneg.mpr hw
      exact_mod_cast this
    have h2 : (0 : ℚ) ≤ (wm_height : ℚ) / (wm_width : ℚ) := by positivity
    exact mul_nonneg h1 h2
  refine ⟨hwidth, ?_, ?_, ?_, ?_⟩
  · simp only [watermark_geometry]
    rw [int_trunc_of_nonneg _ hw]
    exact int_trunc_of_nonneg _ hh
  · simp only [watermark_geometry]
  · intro path wm h
    simp [apply_watermark, h]
  · norm_num [watermark_geometry, int_trunc]

/-- C8 witness: the concrete 1000×1000 instance of the placement theorem. -/
theorem c8_witness :
    watermark_geometry 1000 1000 100 100 (1 / 10) 10 =
      ((100, 100), (890, 890)) :=
  (c8_watermark_placement (fun (_ : ℕ) => (none : Option (ℕ × ℕ × ℕ)))
    (fun i _ _ _ => i) 5 1000 1000 100 100 (1 / 10) 10 (by norm_num)).2.2.2.2

/-- C8 counterexample: at image width 1010 and the default scale 0.15 the
resized watermark width is `int(1010 * 0.15) = 151`, not
`1010 * 0.15 = 151.5`: the width does not equal `scale * image_width`. -/
theorem c8_counterexample :
    (((watermark_geometry 1010 1000 100 100 (3 / 20) 10).1.1 : ℤ) : ℚ) ≠
      (1010 : ℚ) * (3 / 20) := by
  norm_num [watermark_geometry, int_trunc]

/-- C1 (amended): the effective rendered font size is
`max(16, floor(F * W / 800))` (the code truncates with `int`, it does not
round), and a missing or null `font_size` defaults to 48. -/
theorem c1_effective_font_size (F W : ℕ) :
    effectiveFontSize F W = max 16 (F * W / 800) ∧
    overlay_font_size none = 48 :=
  ⟨effectiveFontSize_eq F W, rfl⟩

/-- C1 counterexample: at W = 810 and F = 48 the code yields
`int(48 * 810 / 800) = 48`, while `max(16, round(48 * 810 / 800)) = 49`. -/
theorem c1_counterexample :
    ((effectiveFontSize 48 810 : ℕ) : ℤ) ≠
      max 16 (round ((48 : ℚ) * ((810 : ℚ) / 800))) := by
  rw [effectiveFontSize_eq]
  norm_num [round_eq]

/-- C2 (amended): the per-line height is `floor(font_size * 1.2)` (truncation,
not rounding), and the total block height is `line_height * num_lines`. -/
theorem c2_line_height (fs n : ℕ) :
    lineHeight fs = 6 * fs / 5 ∧ totalTextHeight fs n = lineHeight fs * n :=
  ⟨lineHeight_eq fs, rfl⟩

/-- C2 counterexample: for the achievable effective font size 18
(F = 18, W = 800) the code computes `int(18 * 1.2) = 21`, while
`round(18 * 1.2) = 22`. -/
theorem c2_counterexample :
    ((lineHeight (effectiveFontSize 18 800) : ℕ) : ℤ) ≠
      round (((effectiveFontSize 18 800 : ℕ) : ℚ) * (6 / 5)) := by
  have h : effectiveFontSize 18 800 = 18 := by
    rw [effectiveFontSize_eq]
    norm_num
  rw [h, lineHeight_eq]
  norm_num [round_eq]

/-- C4 (amended): for position top the block starts `floor(0.03 * H)` from the
top edge (truncation, not rounding), and for bottom at
`H - total_block_height - floor(0.03 * H)`; both for every height and
independent of the text content. -/
theorem c4_vertical_placement (H T : ℕ) :
    startY OverlayPosition.top H T = ((3 * H / 100 : ℕ) : ℤ) ∧
    startY OverlayPosition.bottom H T =
      (H : ℤ) - (T : ℤ) - ((3 * H / 100 : ℕ) : ℤ) := by
  constructor
  · rw [startY, trunc_three_percent]
  · rw [startY, trunc_three_percent]

/-- C4 counterexample: at H = 125 the code computes `int(125 * 0.03) = 3`,
while `round(125 * 0.03) = round(3.75) = 4`. -/
theorem c4_counterexample :
    startY OverlayPosition.top 125 0 ≠ round ((125 : ℚ) * (3 / 100)) := by
  norm_num [startY, int_trunc, round_eq]

/-- C5 (amended): with stroke radius `r = max(2, floor(font_size / 16))`
(truncation, not rounding), an integer offset `(dx, dy)` is drawn in the
stroke color if and only if `dx² + dy² ≤ r²`, and the draw sequence for a line
is exactly those stroke passes followed by the single fill draw at `(x, y)`. -/
theorem c5_stroke_disk (fs : ℕ) (x y : ℤ) :
    strokeWidth fs = max 2 (fs / 16) ∧
    (∀ d : ℤ × ℤ, d ∈ strokeOffsets (strokeWidth fs) ↔
      d.1 * d.1 + d.2 * d.2 ≤ (strokeWidth fs : ℤ) * (strokeWidth fs)) ∧
    drawLineEvents x y (strokeWidth fs) =
      ((strokeOffsets (strokeWidth fs)).map
        fun d => DrawEvent.strokeDraw (x + d.1, y + d.2)) ++
        [DrawEvent.fillDraw (x, y)] :=
  ⟨strokeWidth_eq fs, fun d => mem_strokeOffsets _ d, rfl⟩

/-- C5 counterexample: for the achievable effective font size 47
(F = 47, W = 800) the code computes `max(2, int(47 / 16)) = 2`, while
`max(2, round(47 / 16)) = max(2, 3) = 3`. -/
theorem c5_counterexample :
    ((strokeWidth (effectiveFontSize 47 800) : ℕ) : ℤ) ≠
      max 2 (round (((effectiveFontSize 47 800 : ℕ) : ℚ) / 16)) := by
  have h : effectiveFontSize 47 800 = 47 := by
    rw [effectiveFontSize_eq]
    norm_num
  rw [h, strokeWidth_eq]
  norm_num [round_eq]
